import Mathlib

/-!
Shallow embedding of the diffing engine of the `flaker` repository
(`src/diffing.rs`), together with theorems settling the frozen claims
about its specification.

Modelling conventions:
* Rust `String` values (messages, positions) are embedded as `List Char`.
* Raw process output (`Vec<u8>`, and the byte view that `str::get`
  exposes) is embedded as `List Nat`, each element a byte value.
* `HashMap` is embedded as an association list with unique keys; since
  the iteration order of a `HashMap` is unspecified, every property of
  interest is stated through `lget` (key lookup), and hypotheses
  `NodupKeys` record the map invariant where a proof needs it.
* `HashSet` is embedded as a duplicate-free list; membership is the
  set's semantics.
* Calls into `serde_json` are embedded as an explicit parameter
  `parse : List Nat → Option LogEntry`; every theorem about the log
  parser is uniform in that parameter.
* Panics (`todo!`, `Option::unwrap` on `None`) and `?`-propagated
  errors are embedded as `Except` error values with one constructor
  per distinct exit path.
-/

namespace Flaker

/-- Positions (`type Position = String` in `diffing.rs`). -/
abbrev Pos := List Char

/-- Messages (`type Message = String` in `diffing.rs`). -/
abbrev Message := List Char

/-! ### Message normalizer (`parsing::simplify_msg`, diffing.rs lines 27–37)

The regex is `--extra-deprecated-features (?<feature_name>[\w-]+)\b`.
`\w` of the Rust regex crate is Unicode-aware; this embedding models its
ASCII fragment (every claim about the normalizer is instantiated on
ASCII messages, and the ASCII scope is recorded as a hypothesis where a
theorem would otherwise overreach). -/

/-- ASCII fragment of the regex class `\w` (`[A-Za-z0-9_]`). -/
def isWordChar (c : Char) : Bool :=
  c.isAlphanum || c == '_'

/-- A character matched by the regex class `[\w-]`. -/
def wordDash (c : Char) : Bool :=
  isWordChar c || c == '-'

/-- The literal part of `DEP_FINDER_RE`. -/
def lit : List Char := "--extra-deprecated-features ".toList

/-- Drop the trailing `'-'` characters of a run.  A greedy `[\w-]+`
followed by `\b` matches exactly the maximal `[\w-]` run shortened to
its last word character, i.e. with trailing hyphens removed. -/
def trimDashes (l : List Char) : List Char :=
  (l.reverse.dropWhile (fun c => c == '-')).reverse

/-- Leftmost match of `DEP_FINDER_RE` (`DEP_FINDER_RE.captures`),
returning the `feature_name` capture group: scan for the leftmost
occurrence of the literal whose following `[\w-]` run still contains a
word character; the capture is that run with trailing hyphens removed
(forced by the trailing `\b`). -/
def findDep : List Char → Option (List Char)
  | [] => none
  | c :: rest =>
    if lit.isPrefixOf (c :: rest) then
      if trimDashes (((c :: rest).drop lit.length).takeWhile wordDash) = [] then
        findDep rest
      else
        some (trimDashes (((c :: rest).drop lit.length).takeWhile wordDash))
    else findDep rest

/-- `parsing::simplify_msg` (diffing.rs lines 31–37): replace the whole
message by `"Deprecated Feature: " ++ name` when the regex matches,
otherwise return the message unchanged. -/
def simplify_msg (msg : Message) : Message :=
  match findDep msg with
  | some name => "Deprecated Feature: ".toList ++ name
  | none => msg

/-- Modelled from the spec (claim C5's reading of the marker): the
message contains `--extra-deprecated-features ` followed by a non-empty
run of `[A-Za-z0-9_-]` characters.  This is the spec-side definition
used only to compare the claim's wording against the code. -/
def claimHasMarker : List Char → Bool
  | [] => false
  | c :: rest =>
    (lit.isPrefixOf (c :: rest) &&
      !(((c :: rest).drop lit.length).takeWhile wordDash = [])) ||
    claimHasMarker rest

/-! ### Data model (`Finds`, `CompLog`, diffing.rs lines 98–116) -/

/-- `struct Finds { positions: HashSet<Position> }`.  The hash set is
embedded as a list; all set operations are membership-based. -/
structure Finds where
  positions : List Pos
deriving DecidableEq, Repr

/-- Hash-set insertion (`HashSet::insert`): a duplicate insertion is a
no-op. -/
def Finds.insertP (f : Finds) (p : Pos) : Finds :=
  if p ∈ f.positions then f else ⟨f.positions ++ [p]⟩

/-- `type CompLog = HashMap<Message, Finds>`, embedded as an
association list. -/
abbrev CompLog := List (Message × Finds)

/-- Key lookup in a `CompLog` (`HashMap` indexing / `contains_key`). -/
def lget : CompLog → Message → Option Finds
  | [], _ => none
  | (k, f) :: rest, m => if k = m then some f else lget rest m

/-- Position list stored under a message, empty when the message is
absent (the claims' reading of `A[m]`). -/
def getPos (l : CompLog) (m : Message) : List Pos :=
  match lget l m with
  | some f => f.positions
  | none => []

/-- The `HashMap` invariant: keys are pairwise distinct. -/
def NodupKeys (l : CompLog) : Prop :=
  (l.map Prod.fst).Nodup

instance (l : CompLog) : Decidable (NodupKeys l) := by
  unfold NodupKeys; infer_instance

/-- `hm.entry(k).or_insert(Default::default()).positions.insert(p)`:
add position `p` under message `k`, creating the entry on first use. -/
def insertPosLog : CompLog → Message → Pos → CompLog
  | [], k, p => [(k, ⟨[p]⟩)]
  | (k0, f) :: rest, k, p =>
    if k0 = k then (k0, f.insertP p) :: rest
    else (k0, f) :: insertPosLog rest k p

/-- `HashMap::insert` (overwrite the value when the key exists,
otherwise add the pair). -/
def insertPairLog : CompLog → Message → Finds → CompLog
  | [], k, v => [(k, v)]
  | (k0, f) :: rest, k, v =>
    if k0 = k then (k0, v) :: rest
    else (k0, f) :: insertPairLog rest k v

/-- `HashMap::extend` (used by `Diff::<CompLog>::merge`): insert every
entry of `other`, overwriting colliding keys (last-writer-wins). -/
def extendLog (base other : CompLog) : CompLog :=
  other.foldl (fun acc kv => insertPairLog acc kv.1 kv.2) base

/-- `PartialEq` of `Finds` (`HashSet` equality is set equality). -/
def findsEqv (f g : Finds) : Bool :=
  f.positions.all (fun p => decide (p ∈ g.positions)) &&
  g.positions.all (fun p => decide (p ∈ f.positions))

/-- `PartialEq` of `CompLog` (`HashMap` equality: the same keys, with
set-equal `Finds`). -/
def logBeq (a b : CompLog) : Bool :=
  (a.all fun kv =>
    match lget b kv.1 with
    | some g => findsEqv kv.2 g
    | none => false) &&
  (b.all fun kv =>
    match lget a kv.1 with
    | some g => findsEqv kv.2 g
    | none => false)

/-- `struct Diff<T> { result_a: T, result_b: T }`. -/
structure Diff (T : Type) where
  result_a : T
  result_b : T
deriving DecidableEq, Repr

/-- One side of `Diff::<CompLog>::from` (the inner `extract` closure,
diffing.rs lines 132–154): for a key present on both sides keep the
position-set difference (creating an entry only when it is non-empty);
for a key absent from `b` copy the whole `Finds`.  `HashMap` iteration
order is unspecified, so the embedding fixes the list order; all
properties are read through `lget`. -/
def extract : CompLog → CompLog → CompLog
  | [], _ => []
  | (k, f) :: rest, b =>
    match lget b k with
    | some g =>
      if f.positions.filter (fun p => decide (p ∉ g.positions)) = [] then
        extract rest b
      else
        (k, ⟨f.positions.filter (fun p => decide (p ∉ g.positions))⟩) ::
          extract rest b
    | none => (k, f) :: extract rest b

/-- `Diff::<CompLog>::from` (diffing.rs lines 131–163). -/
def Diff.fromComp (result_a result_b : CompLog) : Diff CompLog :=
  { result_a := extract result_a result_b
    result_b := extract result_b result_a }

/-- `Diff::<CompLog>::merge` (diffing.rs lines 165–168):
`self.result_a.extend(b.result_a); self.result_b.extend(b.result_b)`. -/
def Diff.mergeComp (s b : Diff CompLog) : Diff CompLog :=
  { result_a := extendLog s.result_a b.result_a
    result_b := extendLog s.result_b b.result_b }

/-! ### ParserDiff (diffing.rs lines 118–128 and 180–207) -/

/-- `struct ParserDiff` – six optional facets. -/
structure ParserDiff where
  pass_eq : Option (Diff Bool) := none
  exit_eq : Option (Diff (Option Int)) := none
  stdout_eq : Option (Diff Message) := none
  err_eq : Option (Diff CompLog) := none
  warn_eq : Option (Diff CompLog) := none
  trace_eq : Option (Diff CompLog) := none
deriving DecidableEq, Repr

/-- The `merge_complog!` macro of diffing.rs lines 170–178. -/
def mergeOptLog : Option (Diff CompLog) → Option (Diff CompLog) → Option (Diff CompLog)
  | some a, some b => some (a.mergeComp b)
  | none, b => b
  | some a, none => some a

/-- `ParserDiff::merge` (diffing.rs lines 181–207). -/
def ParserDiff.merge (s other : ParserDiff) : ParserDiff :=
  { pass_eq :=
      match s.pass_eq with
      | none => other.pass_eq
      | some d => some d
    exit_eq :=
      match s.exit_eq with
      | none => other.exit_eq
      | some d => some d
    stdout_eq :=
      match s.stdout_eq, other.stdout_eq with
      | some _, some _ =>
        some ⟨"Multiple given".toList, "Multiple given".toList⟩
      | none, b => b
      | a, none => a
    err_eq := mergeOptLog s.err_eq other.err_eq
    warn_eq := mergeOptLog s.warn_eq other.warn_eq
    trace_eq := mergeOptLog s.trace_eq other.trace_eq }

/-! ### Log parser (`parsing::split_stderr`, diffing.rs lines 54–95)

Lines are byte strings (`&str` slicing in the source is byte-indexed
and checks character boundaries), so this part of the embedding works
on `List Nat`. -/

/-- `struct LogEntry` (diffing.rs lines 18–25).  String fields are the
decoded strings that `serde_json` would produce. -/
structure LogEntry where
  action : List Char
  file : Option (List Char)
  level : Int
  msg : Message
  raw_msg : Option Message
deriving DecidableEq, Repr

/-- Exit paths of `split_stderr` that abort processing.  All three are
panics in the source: the two `todo!` calls and the `unwrap` of
`line.get(5..)`. -/
inductive StderrErr where
  /-- `todo!("new action type: {}", v.action)` (line 68). -/
  | newActionType (a : List Char)
  /-- `todo!("new type: {}", t)` (line 76) carrying the 4-byte line head. -/
  | newType (t : List Nat)
  /-- `line.get(5..).unwrap()` panicking on `None` (line 64). -/
  | missingSlice
deriving DecidableEq, Repr

/-- UTF-8 continuation byte. -/
def contByte (b : Nat) : Bool :=
  0x80 ≤ b && b < 0xC0

/-- `str::is_char_boundary(i)`: `i` is the length, or `i` is in range
and does not point at a continuation byte. -/
def isBoundary (l : List Nat) (i : Nat) : Bool :=
  i == l.length || (decide (i < l.length) && !contByte (l.getD i 0))

/-- `line.get(0..4)` (byte slice, `None` when index 4 is not a
character boundary or the line is shorter than 4 bytes). -/
def get04 (l : List Nat) : Option (List Nat) :=
  if isBoundary l 4 then some (l.take 4) else none

/-- `line.get(5..)`. -/
def get5 (l : List Nat) : Option (List Nat) :=
  if isBoundary l 5 then some (l.drop 5) else none

/-- The bytes of `"@nix"`. -/
def nixBytes : List Nat := [64, 110, 105, 120]

/-- `Regex::new(r"\n").split(stderr)`: split the byte string on the
newline byte (`'\n'` is ASCII, so byte-level and character-level
splitting agree on valid UTF-8). -/
def splitLines : List Nat → List (List Nat)
  | [] => [[]]
  | b :: rest =>
    match splitLines rest with
    | [] => [[]]
    | l :: ls => if b = 10 then [] :: l :: ls else (b :: l) :: ls

/-- Processing of one stderr line (the closure of the `for_each` at
diffing.rs lines 60–80), accumulating into the `logs` vector. -/
def stepLine (parse : List Nat → Option LogEntry) (logs : List LogEntry)
    (line : List Nat) : Except StderrErr (List LogEntry) :=
  match get04 line with
  | some t =>
    if t = nixBytes then
      match get5 line with
      | some j =>
        match parse j with
        | some v =>
          if v.action = "msg".toList then .ok (logs ++ [v])
          else .error (.newActionType v.action)
        | none => .ok logs
      | none => .error .missingSlice
    else .error (.newType t)
  | none => .ok logs

/-- The `for_each` loop over the split lines; the first panic aborts. -/
def collectLogs (parse : List Nat → Option LogEntry) :
    List (List Nat) → List LogEntry → Except StderrErr (List LogEntry)
  | [], logs => .ok logs
  | line :: rest, logs =>
    match stepLine parse logs line with
    | .error e => .error e
    | .ok logs2 => collectLogs parse rest logs2

/-- `parsing::dedup_log` (diffing.rs lines 39–52): key by
`raw_msg.unwrap_or(msg)` passed through `simplify_msg`, position by
`file.unwrap_or(fp)`. -/
def dedupLog (entries : List LogEntry) (fp : Pos) : CompLog :=
  entries.foldl
    (fun hm e => insertPosLog hm (simplify_msg (e.raw_msg.getD e.msg)) (e.file.getD fp))
    []

/-- The body of `split_stderr` after line splitting: collect the log
entries, bucket them by level (0 → errors, 1 → warnings, anything else
→ traces, lines 81–89), and dedup each bucket. -/
def processLines (parse : List Nat → Option LogEntry) (fp : Pos)
    (lines : List (List Nat)) : Except StderrErr (CompLog × CompLog × CompLog) :=
  match collectLogs parse lines [] with
  | .error e => .error e
  | .ok logs =>
    .ok (dedupLog (logs.filter fun l => l.level == 0) fp,
         dedupLog (logs.filter fun l => l.level == 1) fp,
         dedupLog (logs.filter fun l => l.level ≠ 0 && l.level ≠ 1) fp)

/-- `parsing::split_stderr` (diffing.rs lines 54–95). -/
def split_stderr (parse : List Nat → Option LogEntry) (fp : Pos)
    (stderr : List Nat) : Except StderrErr (CompLog × CompLog × CompLog) :=
  processLines parse fp (splitLines stderr)

/-! ### Runner output and the file differ (diffing.rs lines 210–293) -/

/-- `std::process::ExitStatus`, restricted to what the differ reads:
equality, `success()` and `code()`. -/
inductive ExitStatus where
  | exited (code : Int)
  | signaled (sig : Int)
deriving DecidableEq, Repr

/-- `ExitStatus::success()`. -/
def ExitStatus.success : ExitStatus → Bool
  | .exited c => c == 0
  | .signaled _ => false

/-- `ExitStatus::code()` (absent when the process was signaled). -/
def ExitStatus.code : ExitStatus → Option Int
  | .exited c => some c
  | .signaled _ => none

/-- `std::process::Output` – status plus captured byte streams. -/
structure Output where
  status : ExitStatus
  stdout : List Nat
  stderr : List Nat
deriving DecidableEq, Repr

/-- `String::from_utf8`: decode a byte list, `none` on invalid UTF-8.
Faithful to the UTF-8 validation of the Rust standard library
(shortest-form, surrogate and range checks). -/
def decodeUtf8 : List Nat → Option (List Char)
  | [] => some []
  | b0 :: r =>
    if b0 < 0x80 then
      match decodeUtf8 r with
      | some cs => some (Char.ofNat b0 :: cs)
      | none => none
    else if b0 < 0xC2 then none
    else if b0 < 0xE0 then
      match r with
      | b1 :: r2 =>
        if contByte b1 then
          match decodeUtf8 r2 with
          | some cs => some (Char.ofNat ((b0 - 0xC0) * 64 + (b1 - 0x80)) :: cs)
          | none => none
        else none
      | [] => none
    else if b0 < 0xF0 then
      match r with
      | b1 :: b2 :: r3 =>
        if (if b0 = 0xE0 then 0xA0 ≤ b1 && b1 < 0xC0
            else if b0 = 0xED then 0x80 ≤ b1 && b1 < 0xA0
            else contByte b1) && contByte b2 then
          match decodeUtf8 r3 with
          | some cs =>
            some (Char.ofNat ((b0 - 0xE0) * 4096 + (b1 - 0x80) * 64 + (b2 - 0x80)) :: cs)
          | none => none
        else none
      | _ => none
    else if b0 < 0xF5 then
      match r with
      | b1 :: b2 :: b3 :: r4 =>
        if (if b0 = 0xF0 then 0x90 ≤ b1 && b1 < 0xC0
            else if b0 = 0xF4 then 0x80 ≤ b1 && b1 < 0x90
            else contByte b1) && contByte b2 && contByte b3 then
          match decodeUtf8 r4 with
          | some cs =>
            some (Char.ofNat ((b0 - 0xF0) * 262144 + (b1 - 0x80) * 4096 +
              (b2 - 0x80) * 64 + (b3 - 0x80)) :: cs)
          | none => none
        else none
      | _ => none
    else none

/-- Failure exits of `diff_file` (`?` on `String::from_utf8`, and the
panics of `split_stderr` propagating out of `diff_stderr`). -/
inductive DiffFailure where
  | encodingError
  | logFailure (e : StderrErr)
deriving DecidableEq, Repr

/-- `diff_stderr` (diffing.rs lines 210–233): on byte-equal stderrs no
facet; otherwise parse both sides and produce a `Diff` per severity
exactly when the two `CompLog`s differ. -/
def diffStderrLogs (parse : List Nat → Option LogEntry) (fp : Pos)
    (sa sb : List Nat) :
    Except StderrErr
      (Option (Diff CompLog) × Option (Diff CompLog) × Option (Diff CompLog)) :=
  if sa = sb then .ok (none, none, none)
  else
    match split_stderr parse fp sa with
    | .error e => .error e
    | .ok (ea, wa, ta) =>
      match split_stderr parse fp sb with
      | .error e => .error e
      | .ok (eb, wb, tb) =>
        .ok (if logBeq ea eb then none else some (Diff.fromComp ea eb),
             if logBeq wa wb then none else some (Diff.fromComp wa wb),
             if logBeq ta tb then none else some (Diff.fromComp ta tb))

/-- The comparison part of `diff_file` (diffing.rs lines 262–292),
after both runner `Output`s are available.  Note that the source
evaluates `String::from_utf8(result_x.stdout)?` eagerly as the argument
of `then_some`, so the stdouts are decoded whenever the outputs differ
at all. -/
def diffOutputs (parse : List Nat → Option LogEntry) (fp : Pos)
    (a b : Output) : Except DiffFailure (Option ParserDiff) :=
  if a = b then .ok none
  else
    match decodeUtf8 a.stderr, decodeUtf8 b.stderr with
    | some _, some _ =>
      match diffStderrLogs parse fp a.stderr b.stderr with
      | .error e => .error (.logFailure e)
      | .ok (errD, warnD, traceD) =>
        match decodeUtf8 a.stdout, decodeUtf8 b.stdout with
        | some soutA, some soutB =>
          .ok (some
            { pass_eq :=
                if a.status.success && b.status.success then none
                else some ⟨a.status.success, b.status.success⟩
              exit_eq :=
                if a.status = b.status then none
                else some ⟨a.status.code, b.status.code⟩
              stdout_eq :=
                if a.stdout = b.stdout then none
                else some ⟨soutA, soutB⟩
              err_eq := errD
              warn_eq := warnD
              trace_eq := traceD })
        | _, _ => .error .encodingError
    | _, _ => .error .encodingError

/-! ### Diff aggregation (`DiffResult`, diffing.rs lines 295–337) -/

/-- `struct DiffResult` – three maps `Message → Diff<HashSet<Position>>`,
embedded as association lists of `Diff (List Pos)`. -/
structure DiffResult where
  err_diff : List (Message × Diff (List Pos)) := []
  wrn_diff : List (Message × Diff (List Pos)) := []
  trc_diff : List (Message × Diff (List Pos)) := []
deriving Repr

/-- `hm.entry(msg).or_insert(Default::default()).result_a = poss`. -/
def setSideA : List (Message × Diff (List Pos)) → Message → List Pos →
    List (Message × Diff (List Pos))
  | [], m, ps => [(m, ⟨ps, []⟩)]
  | (k, d) :: rest, m, ps =>
    if k = m then (k, ⟨ps, d.result_b⟩) :: rest
    else (k, d) :: setSideA rest m ps

/-- `hm.entry(msg).or_insert(Default::default()).result_b = poss`. -/
def setSideB : List (Message × Diff (List Pos)) → Message → List Pos →
    List (Message × Diff (List Pos))
  | [], m, ps => [(m, ⟨[], ps⟩)]
  | (k, d) :: rest, m, ps =>
    if k = m then (k, ⟨d.result_a, ps⟩) :: rest
    else (k, d) :: setSideB rest m ps

/-- `propagate_msg` (diffing.rs lines 315–329). -/
def propagateMsg : Option (Diff CompLog) → List (Message × Diff (List Pos))
  | none => []
  | some d =>
    d.result_b.foldl (fun hm e => setSideB hm e.1 e.2.positions)
      (d.result_a.foldl (fun hm e => setSideA hm e.1 e.2.positions) [])

/-- `DiffResult::from` (diffing.rs lines 303–336): an empty input gives
the default result; otherwise fold `ParserDiff::merge` over the list
(`Iterator::reduce`) and project each severity with `propagate_msg`. -/
def DiffResult.fromDiffs : List ParserDiff → DiffResult
  | [] => {}
  | h :: t =>
    let rep := t.foldl (fun acc d => acc.merge d) h
    { err_diff := propagateMsg rep.err_eq
      wrn_diff := propagateMsg rep.warn_eq
      trc_diff := propagateMsg rep.trace_eq }

/-! ### Predicates and concrete inputs used by the claim theorems -/

/-- First-wins combination of options (`Option::or`). -/
def optOr {α : Type} (x y : Option α) : Option α :=
  match x with
  | some v => some v
  | none => y

/-- Declarative reading of a `DEP_FINDER_RE` match: somewhere in the
message the literal is followed by a `[\w-]` run whose last character
is a word character (the run can then be extended to the greedy match
and the trailing `\b` holds). -/
def HasMatch (msg : List Char) : Prop :=
  ∃ u w v c, msg = u ++ lit ++ w ++ v ∧ w.all wordDash = true ∧
    w.getLast? = some c ∧ isWordChar c = true

/-- No entry of the log carries an empty position set. -/
def NoEmptyFinds (l : CompLog) : Prop :=
  ∀ kf ∈ l, kf.2.positions ≠ []

/-- An optional `Diff<CompLog>` facet whose two sides carry no empty
position sets. -/
def GoodLogOpt (o : Option (Diff CompLog)) : Prop :=
  ∀ d, o = some d → NoEmptyFinds d.result_a ∧ NoEmptyFinds d.result_b

/-- All three severity facets of a `ParserDiff` carry no empty
position sets. -/
def GoodParserDiff (pd : ParserDiff) : Prop :=
  GoodLogOpt pd.err_eq ∧ GoodLogOpt pd.warn_eq ∧ GoodLogOpt pd.trace_eq

/-- A `ParserDiff` as produced by the file differ. -/
def FromDiffer (pd : ParserDiff) : Prop :=
  ∃ parse fp a b, diffOutputs parse fp a b = Except.ok (some pd)

/-- A `serde_json` stand-in that fails on every payload. -/
def parse0 : List Nat → Option LogEntry := fun _ => none

/-- A `serde_json` stand-in recognising the single payload `"E"`. -/
def parseW : List Nat → Option LogEntry := fun j =>
  if j = [69] then
    some ⟨"msg".toList, some "g.nix".toList, 0, "boom".toList, none⟩
  else none

/-- A `serde_json` stand-in producing an entry whose `action` is not
`"msg"`. -/
def parseBad : List Nat → Option LogEntry := fun _ =>
  some ⟨"start".toList, none, 0, "m".toList, none⟩

/-- Concrete input-file path. -/
def fp0 : Pos := "f.nix".toList

/-- Output: clean success, nothing printed. -/
def outEq : Output := ⟨.exited 0, [], []⟩

/-- Output: clean success, stderr consisting of one newline. -/
def outNl : Output := ⟨.exited 0, [], [10]⟩

/-- Output: exit code 1, stdout `"x"`. -/
def outX : Output := ⟨.exited 1, [120], []⟩

/-- Output: exit code 1, stdout `"y"`. -/
def outY : Output := ⟨.exited 1, [121], []⟩

/-- Output: clean success, stderr `"@nix E"`. -/
def outE : Output := ⟨.exited 0, [], [64, 110, 105, 120, 32, 69]⟩

/-- The line `"@nix"` — exactly four bytes. -/
def lineNix : List Nat := nixBytes

/-- The line `"@nixß"`: five-byte prefix boundary exists, byte 5 is a
continuation byte. -/
def lineNixSz : List Nat := [64, 110, 105, 120, 195, 159]

/-- The line `"aaaß"`: five bytes, byte 4 is a continuation byte. -/
def lineAaaSz : List Nat := [97, 97, 97, 195, 159]

/-- The message `"--extra-deprecated-features -"`. -/
def msgDash : Message := lit ++ ['-']

/-- The replacement prefix of the normalizer. -/
def dfPre : List Char := "Deprecated Feature: ".toList

/-- The `ParserDiff` that `diffOutputs parseW fp0 outEq outE`
produces: a single error-severity divergence on side b. -/
def pdW : ParserDiff :=
  { err_eq := some ⟨[], [("boom".toList, ⟨["g.nix".toList]⟩)]⟩ }

/-- A `Diff<CompLog>` carrying `m ↦ {x}` on side a. -/
def diffMX : Diff CompLog := ⟨[("m".toList, ⟨["x".toList]⟩)], []⟩

/-- A `Diff<CompLog>` carrying `m ↦ {y}` on side a. -/
def diffMY : Diff CompLog := ⟨[("m".toList, ⟨["y".toList]⟩)], []⟩

/-- Accumulator `ParserDiff` for the merge-table witness. -/
def accW : ParserDiff :=
  { stdout_eq := some ⟨"s1".toList, "s2".toList⟩, err_eq := some diffMX }

/-- Incoming `ParserDiff` for the merge-table witness. -/
def incW : ParserDiff :=
  { pass_eq := some ⟨true, false⟩,
    stdout_eq := some ⟨"t1".toList, "t2".toList⟩, err_eq := some diffMY }

/-! ## Lookup lemmas for the association-list embedding of `HashMap` -/

theorem lget_eq_none_of_not_mem {l : CompLog} {m : Message}
    (h : m ∉ l.map Prod.fst) : lget l m = none := by
  induction l with
  | nil => rfl
  | cons kf rest ih =>
    obtain ⟨k, f⟩ := kf
    simp only [List.map_cons, List.mem_cons, not_or] at h
    simpa [lget, Ne.symm h.1] using ih h.2

theorem lget_insertPairLog (l : CompLog) (k : Message) (v : Finds) (m : Message) :
    lget (insertPairLog l k v) m = if k = m then some v else lget l m := by
  induction l with
  | nil => rfl
  | cons kf rest ih =>
    obtain ⟨k0, f⟩ := kf
    by_cases hk : k0 = k
    · subst hk
      simp only [insertPairLog, if_pos rfl, lget]
      by_cases hm : k0 = m
      · simp [hm]
      · simp [hm]
    · simp only [insertPairLog, if_neg hk, lget, ih]
      by_cases hm : k0 = m
      · subst hm
        have hkm : ¬(k = k0) := fun hh => hk hh.symm
        simp [hkm]
      · simp [hm]

theorem extendLog_cons (X : CompLog) (k : Message) (v : Finds) (Y : CompLog) :
    extendLog X ((k, v) :: Y) = extendLog (insertPairLog X k v) Y := rfl

theorem lget_extendLog (Y : CompLog) (X : CompLog) (m : Message)
    (h : NodupKeys Y) :
    lget (extendLog X Y) m = optOr (lget Y m) (lget X m) := by
  induction Y generalizing X with
  | nil => rfl
  | cons kv Y ih =>
    obtain ⟨k, v⟩ := kv
    have hn : k ∉ Y.map Prod.fst ∧ (Y.map Prod.fst).Nodup := by
      rw [NodupKeys, List.map_cons, List.nodup_cons] at h
      exact h
    rw [extendLog_cons, ih _ hn.2]
    by_cases hk : k = m
    · subst hk
      rw [lget_eq_none_of_not_mem hn.1]
      simp [optOr, lget, lget_insertPairLog]
    · simp [optOr, lget, hk, lget_insertPairLog]

/-! ## Claim C1 — `Diff::from` is the position-level symmetric difference -/

theorem lget_nil (m : Message) : lget [] m = none := rfl

theorem lget_cons (k : Message) (f : Finds) (t : CompLog) (m : Message) :
    lget ((k, f) :: t) m = if k = m then some f else lget t m := rfl

theorem extract_cons (k : Message) (f : Finds) (rest b : CompLog) :
    extract ((k, f) :: rest) b =
      match lget b k with
      | some g =>
        if f.positions.filter (fun p => decide (p ∉ g.positions)) = [] then
          extract rest b
        else
          (k, ⟨f.positions.filter (fun p => decide (p ∉ g.positions))⟩) ::
            extract rest b
      | none => (k, f) :: extract rest b := rfl

theorem lget_extract_eq_none_of_not_mem {a : CompLog} (b : CompLog)
    {m : Message} (h : m ∉ a.map Prod.fst) : lget (extract a b) m = none := by
  induction a with
  | nil => rfl
  | cons kf rest ih =>
    obtain ⟨k, f⟩ := kf
    simp only [List.map_cons, List.mem_cons, not_or] at h
    have hkm : k ≠ m := Ne.symm h.1
    have htail := ih h.2
    rw [extract_cons]
    cases hbk : lget b k with
    | some g =>
      dsimp only
      by_cases hdp :
          f.positions.filter (fun p => decide (p ∉ g.positions)) = []
      · rw [if_pos hdp]
        exact htail
      · rw [if_neg hdp, lget_cons, if_neg hkm]
        exact htail
    | none =>
      dsimp only
      rw [lget_cons, if_neg hkm]
      exact htail

theorem mem_getPos_extract {a : CompLog} (b : CompLog) (hnd : NodupKeys a)
    (m : Message) (p : Pos) :
    p ∈ getPos (extract a b) m ↔
      p ∈ getPos a m ∧ (lget b m = none ∨ p ∉ getPos b m) := by
  induction a with
  | nil => simp [extract, getPos, lget]
  | cons kf rest ih =>
    obtain ⟨k, f⟩ := kf
    have hn : k ∉ rest.map Prod.fst ∧ (rest.map Prod.fst).Nodup := by
      rw [NodupKeys, List.map_cons, List.nodup_cons] at hnd
      exact hnd
    by_cases hk : k = m
    · subst hk
      cases hbk : lget b k with
      | none =>
        have hre : extract ((k, f) :: rest) b = (k, f) :: extract rest b := by
          rw [extract_cons, hbk]
        rw [hre]
        simp [getPos, lget_cons, hbk]
      | some g =>
        by_cases hdp :
            f.positions.filter (fun p => decide (p ∉ g.positions)) = []
        · have hnone : lget (extract rest b) k = none :=
            lget_extract_eq_none_of_not_mem b hn.1
          have hmem : p ∉ f.positions ∨ p ∈ g.positions := by
            by_contra hc
            push_neg at hc
            have hpf : p ∈ f.positions.filter (fun p => decide (p ∉ g.positions)) :=
              List.mem_filter.2 ⟨hc.1, by simpa using hc.2⟩
            rw [hdp] at hpf
            cases hpf
          have hre : extract ((k, f) :: rest) b = extract rest b := by
            rw [extract_cons, hbk]
            dsimp only
            rw [if_pos hdp]
          rw [hre]
          rcases hmem with hm1 | hm2
          · simp [getPos, lget_cons, hbk, hnone, hm1]
          · simp [getPos, lget_cons, hbk, hnone, hm2]
        · have hre : extract ((k, f) :: rest) b =
              (k, ⟨f.positions.filter (fun p => decide (p ∉ g.positions))⟩) ::
                extract rest b := by
            rw [extract_cons, hbk]
            dsimp only
            rw [if_neg hdp]
          rw [hre]
          simp [getPos, lget_cons, hbk, List.mem_filter]
    · have hlhs : lget (extract ((k, f) :: rest) b) m = lget (extract rest b) m := by
        rw [extract_cons]
        cases hbk : lget b k with
        | some g =>
          dsimp only
          by_cases hdp :
              f.positions.filter (fun p => decide (p ∉ g.positions)) = []
          · rw [if_pos hdp]
          · rw [if_neg hdp, lget_cons, if_neg hk]
        | none =>
          dsimp only
          rw [lget_cons, if_neg hk]
      have hrhs : getPos ((k, f) :: rest) m = getPos rest m := by
        simp [getPos, lget_cons, hk]
      rw [getPos, hlhs, ← getPos, hrhs]
      exact ih hn.2

theorem lget_extract_none_of_same {a : CompLog} (b : CompLog)
    (hnd : NodupKeys a) {m : Message} {f g : Finds}
    (ha : lget a m = some f) (hb : lget b m = some g)
    (hfg : ∀ q, q ∈ f.positions ↔ q ∈ g.positions) :
    lget (extract a b) m = none := by
  induction a with
  | nil => cases ha
  | cons kf rest ih =>
    obtain ⟨k, f0⟩ := kf
    have hn : k ∉ rest.map Prod.fst ∧ (rest.map Prod.fst).Nodup := by
      rw [NodupKeys, List.map_cons, List.nodup_cons] at hnd
      exact hnd
    by_cases hk : k = m
    · subst hk
      rw [lget_cons, if_pos rfl, Option.some.injEq] at ha
      subst ha
      have hdp : f0.positions.filter (fun p => decide (p ∉ g.positions)) = [] := by
        rw [List.filter_eq_nil_iff]
        intro q hq
        simp [(hfg q).1 hq]
      have hre : extract ((k, f0) :: rest) b = extract rest b := by
        rw [extract_cons, hb]
        dsimp only
        rw [if_pos hdp]
      rw [hre]
      exact lget_extract_eq_none_of_not_mem b hn.1
    · rw [lget_cons, if_neg hk] at ha
      have htail := ih hn.2 ha
      rw [extract_cons]
      cases hbk : lget b k with
      | some g2 =>
        dsimp only
        by_cases hdp :
            f0.positions.filter (fun p => decide (p ∉ g2.positions)) = []
        · rw [if_pos hdp]
          exact htail
        · rw [if_neg hdp, lget_cons, if_neg hk]
          exact htail
      | none =>
        dsimp only
        rw [lget_cons, if_neg hk]
        exact htail

/-- C1: for any two `CompLog`s (with the `HashMap` key invariant), a
position `p` appears under message `m` in `Diff::from(A,B).result_a`
iff `p ∈ A[m]` and (`m ∉ B` or `p ∉ B[m]`); symmetrically for
`result_b`; and a message with identical position sets on both sides
contributes no entry to either side. -/
theorem C1_diff_from_symmetric_difference (A B : CompLog)
    (hA : NodupKeys A) (hB : NodupKeys B) (m : Message) (p : Pos) :
    (p ∈ getPos (Diff.fromComp A B).result_a m ↔
      p ∈ getPos A m ∧ (lget B m = none ∨ p ∉ getPos B m)) ∧
    (p ∈ getPos (Diff.fromComp A B).result_b m ↔
      p ∈ getPos B m ∧ (lget A m = none ∨ p ∉ getPos A m)) ∧
    (∀ f g, lget A m = some f → lget B m = some g →
      (∀ q, q ∈ f.positions ↔ q ∈ g.positions) →
      lget (Diff.fromComp A B).result_a m = none ∧
      lget (Diff.fromComp A B).result_b m = none) :=
  ⟨mem_getPos_extract B hA m p,
   mem_getPos_extract A hB m p,
   fun f g ha hb hfg =>
     ⟨lget_extract_none_of_same B hA ha hb hfg,
      lget_extract_none_of_same A hB hb ha (fun q => (hfg q).symm)⟩⟩

/-- Witness for C1 at concrete logs `A = [e ↦ {p1, p2}]`,
`B = [e ↦ {p2}]`. -/
theorem C1_witness :
    NodupKeys [("e".toList, Finds.mk ["p1".toList, "p2".toList])] ∧
    NodupKeys [("e".toList, Finds.mk ["p2".toList])] ∧
    (("p1".toList ∈ getPos
        (Diff.fromComp [("e".toList, Finds.mk ["p1".toList, "p2".toList])]
          [("e".toList, Finds.mk ["p2".toList])]).result_a "e".toList) ↔
      ("p1".toList ∈ getPos [("e".toList, Finds.mk ["p1".toList, "p2".toList])] "e".toList ∧
        (lget [("e".toList, Finds.mk ["p2".toList])] "e".toList = none ∨
          "p1".toList ∉ getPos [("e".toList, Finds.mk ["p2".toList])] "e".toList))) :=
  ⟨by decide, by decide,
   (C1_diff_from_symmetric_difference _ _ (by decide) (by decide)
      "e".toList "p1".toList).1⟩

/-! ## Claim C3 — the per-facet merge table -/

/-- C3: one step of the `ParserDiff` fold follows the merge table:
`pass_eq` and `exit_eq` are first-wins; two present `stdout_eq` values
collapse to the sentinel pair, otherwise the present one is kept; the
severity facets adopt the present side, and when both are present each
side's message map is extended with colliding keys taking the incoming
side's `Finds` (last-writer-wins at the message level, witnessed
through lookup). -/
theorem C3_merge_table (s other : ParserDiff) :
    ((s.merge other).pass_eq = optOr s.pass_eq other.pass_eq) ∧
    ((s.merge other).exit_eq = optOr s.exit_eq other.exit_eq) ∧
    (s.stdout_eq = none → (s.merge other).stdout_eq = other.stdout_eq) ∧
    (other.stdout_eq = none → (s.merge other).stdout_eq = s.stdout_eq) ∧
    (∀ d e, s.stdout_eq = some d → other.stdout_eq = some e →
      (s.merge other).stdout_eq =
        some ⟨"Multiple given".toList, "Multiple given".toList⟩) ∧
    ((s.merge other).err_eq = mergeOptLog s.err_eq other.err_eq ∧
     (s.merge other).warn_eq = mergeOptLog s.warn_eq other.warn_eq ∧
     (s.merge other).trace_eq = mergeOptLog s.trace_eq other.trace_eq) ∧
    (∀ A B, mergeOptLog (some A) (some B) =
      some ⟨extendLog A.result_a B.result_a, extendLog A.result_b B.result_b⟩) ∧
    (∀ A, mergeOptLog none A = A ∧ mergeOptLog A none = A) ∧
    (∀ X Y m, NodupKeys Y →
      lget (extendLog X Y) m = optOr (lget Y m) (lget X m)) := by
  refine ⟨?_, ?_, ?_, ?_, ?_, ⟨rfl, rfl, rfl⟩, fun A B => rfl, ?_, ?_⟩
  · cases hp : s.pass_eq <;> simp [ParserDiff.merge, hp, optOr]
  · cases hp : s.exit_eq <;> simp [ParserDiff.merge, hp, optOr]
  · intro hs
    simp [ParserDiff.merge, hs]
  · intro ho
    cases hss : s.stdout_eq <;> simp [ParserDiff.merge, hss, ho]
  · intro d e hd he
    simp [ParserDiff.merge, hd, he]
  · intro A
    exact ⟨rfl, by cases A <;> rfl⟩
  · intro X Y m h
    exact lget_extendLog Y X m h

/-- Witness for the merge table at concrete `ParserDiff`s: the sentinel
collapse of `stdout_eq` and the last-writer-wins lookup on the merged
`err_eq` side a. -/
theorem C3_witness :
    (accW.merge incW).stdout_eq =
      some ⟨"Multiple given".toList, "Multiple given".toList⟩ ∧
    (accW.merge incW).err_eq = mergeOptLog accW.err_eq incW.err_eq ∧
    lget (extendLog diffMX.result_a diffMY.result_a) "m".toList =
      optOr (lget diffMY.result_a "m".toList)
        (lget diffMX.result_a "m".toList) ∧
    lget (extendLog diffMX.result_a diffMY.result_a) "m".toList =
      some ⟨["y".toList]⟩ := by
  obtain ⟨-, -, -, -, hsent, ⟨herr, -, -⟩, -, -, hlww⟩ :=
    C3_merge_table accW incW
  exact ⟨hsent _ _ rfl rfl, herr,
    hlww diffMX.result_a diffMY.result_a "m".toList (by decide), by decide⟩

/-! ## Claim C4 — equal outputs give a null diff -/

/-- C4: for any input on which both parsers produce byte-identical
status, stdout and stderr, `diff_file` returns `None` (never an empty
record). -/
theorem C4_equal_output_null_diff
    (parse : List Nat → Option LogEntry) (fp : Pos)
    (st : ExitStatus) (so se : List Nat) :
    diffOutputs parse fp ⟨st, so, se⟩ ⟨st, so, se⟩ = .ok none := by
  simp [diffOutputs]

/-! ## Claims C5 and C6 — the message normalizer -/

theorem findDep_cons (c : Char) (rest : List Char) :
    findDep (c :: rest) =
      if lit.isPrefixOf (c :: rest) then
        if trimDashes (((c :: rest).drop lit.length).takeWhile wordDash) = [] then
          findDep rest
        else
          some (trimDashes (((c :: rest).drop lit.length).takeWhile wordDash))
      else findDep rest := rfl

theorem dropWhile_head_false {p : Char → Bool} :
    ∀ {l : List Char} {x xs}, l.dropWhile p = x :: xs → p x = false := by
  intro l
  induction l with
  | nil => intro x xs h; cases h
  | cons a t ih =>
    intro x xs h
    rw [List.dropWhile_cons] at h
    by_cases hp : p a = true
    · rw [if_pos hp] at h
      exact ih h
    · rw [if_neg hp] at h
      cases h
      exact Bool.eq_false_iff.2 hp

theorem trimDashes_decomp (l : List Char) :
    ∃ d, l = trimDashes l ++ d ∧ ∀ c ∈ d, c = '-' := by
  refine ⟨(l.reverse.takeWhile (fun c => c == '-')).reverse, ?_, ?_⟩
  · rw [trimDashes]
    rw [← List.reverse_append, List.takeWhile_append_dropWhile, List.reverse_reverse]
  · intro c hc
    rw [List.mem_reverse] at hc
    have := List.mem_takeWhile_imp hc
    simpa using this

theorem trimDashes_eq_nil_iff (l : List Char) :
    trimDashes l = [] ↔ ∀ c ∈ l, c = '-' := by
  rw [trimDashes, List.reverse_eq_nil_iff, List.dropWhile_eq_nil_iff]
  constructor
  · intro h c hc
    simpa using h c (List.mem_reverse.2 hc)
  · intro h c hc
    simpa using h c (List.mem_reverse.1 hc)

theorem trimDashes_getLast {l : List Char} (h : trimDashes l ≠ []) :
    ∃ c, (trimDashes l).getLast? = some c ∧ ¬(c = '-') := by
  rw [trimDashes] at h ⊢
  rcases hd : l.reverse.dropWhile (fun c => c == '-') with _ | ⟨x, xs⟩
  · simp [hd] at h
  · refine ⟨x, ?_, ?_⟩
    · rw [List.getLast?_reverse]
      rfl
    · have := dropWhile_head_false hd
      simpa using this

theorem takeWhile_append_all {p : Char → Bool} :
    ∀ {l l2 : List Char}, l.all p = true →
      (l ++ l2).takeWhile p = l ++ l2.takeWhile p := by
  intro l
  induction l with
  | nil => intro l2 _; rfl
  | cons a t ih =>
    intro l2 h
    rw [List.all_cons, Bool.and_eq_true] at h
    rw [List.cons_append, List.takeWhile_cons, if_pos h.1, ih h.2]
    rfl

/-- Soundness of the scanner: a successful `findDep` yields a
non-empty `[\w-]` name ending in a word character that occurs right
after the literal somewhere in the message. -/
theorem findDep_sound :
    ∀ {msg name}, findDep msg = some name →
      name ≠ [] ∧ name.all wordDash = true ∧
      (∃ c, name.getLast? = some c ∧ isWordChar c = true) ∧
      ∃ u v, msg = u ++ lit ++ name ++ v := by
  intro msg
  induction msg with
  | nil => intro name h; cases h
  | cons c rest ih =>
    intro name h
    rw [findDep_cons] at h
    by_cases hpre : lit.isPrefixOf (c :: rest)
    · rw [if_pos hpre] at h
      by_cases hnil :
          trimDashes (((c :: rest).drop lit.length).takeWhile wordDash) = []
      · rw [if_pos hnil] at h
        obtain ⟨h1, h2, h3, u, v, h4⟩ := ih h
        exact ⟨h1, h2, h3, c :: u, v, by rw [h4]; rfl⟩
      · rw [if_neg hnil, Option.some.injEq] at h
        subst h
        obtain ⟨t, ht⟩ : ∃ t, lit ++ t = c :: rest :=
          (List.isPrefixOf_iff_prefix.1 hpre)
        have hdrop : (c :: rest).drop lit.length = t := by
          rw [← ht, List.drop_left]
        rw [hdrop] at hnil ⊢
        set run := t.takeWhile wordDash with hrun
        obtain ⟨d, hdec, hdash⟩ := trimDashes_decomp run
        have hallrun : run.all wordDash = true := by
          rw [List.all_eq_true]
          intro x hx
          exact List.mem_takeWhile_imp hx
        have hallname : (trimDashes run).all wordDash = true := by
          rw [List.all_eq_true]
          intro x hx
          rw [List.all_eq_true] at hallrun
          exact hallrun x (by rw [hdec]; exact List.mem_append_left _ hx)
        obtain ⟨cl, hcl, hcl2⟩ := trimDashes_getLast hnil
        refine ⟨hnil, hallname, ⟨cl, hcl, ?_⟩, [], d ++ t.dropWhile wordDash, ?_⟩
        · have hclmem : cl ∈ trimDashes run :=
            List.mem_of_mem_getLast? (Option.mem_def.mpr hcl)
          rw [List.all_eq_true] at hallname
          have hwd := hallname cl hclmem
          rw [wordDash, Bool.or_eq_true] at hwd
          rcases hwd with hw | hd
          · exact hw
          · exact absurd (by simpa using hd) hcl2
        · rw [List.nil_append, ← ht, List.append_assoc]
          congr 1
          rw [← List.append_assoc, ← hdec, hrun, List.takeWhile_append_dropWhile]
    · rw [if_neg hpre] at h
      obtain ⟨h1, h2, h3, u, v, h4⟩ := ih h
      exact ⟨h1, h2, h3, c :: u, v, by rw [h4]; rfl⟩

/-- Completeness of the scanner: whenever a declarative match exists,
`findDep` returns a capture. -/
theorem findDep_complete :
    ∀ {msg}, HasMatch msg → (findDep msg).isSome = true := by
  intro msg
  induction msg with
  | nil =>
    intro ⟨u, w, v, c0, heq, _, _, _⟩
    exfalso
    have hlen := congrArg List.length heq
    rw [List.length_append, List.length_append, List.length_append] at hlen
    have hlit : lit.length = 28 := by decide
    rw [hlit] at hlen
    simp at hlen
    omega
  | cons c rest ih =>
    intro ⟨u, w, v, c0, heq, hwall, hlast, hword⟩
    rw [findDep_cons]
    by_cases hpre : lit.isPrefixOf (c :: rest)
    · rw [if_pos hpre]
      by_cases hnil :
          trimDashes (((c :: rest).drop lit.length).takeWhile wordDash) = []
      · rw [if_pos hnil]
        rcases u with _ | ⟨u0, u'⟩
        · exfalso
          rw [List.nil_append] at heq
          have hdrop : (c :: rest).drop lit.length = w ++ v := by
            rw [heq, List.append_assoc] at hnil ⊢
            rw [List.drop_left]
          rw [hdrop, takeWhile_append_all hwall] at hnil
          rw [trimDashes_eq_nil_iff] at hnil
          have hc0mem : c0 ∈ w :=
            List.mem_of_mem_getLast? (Option.mem_def.mpr hlast)
          have : c0 = '-' :=
            hnil c0 (List.mem_append_left _ hc0mem)
          subst this
          exact absurd hword (by decide)
        · rw [List.cons_append] at heq
          injection heq with h1 h2
          exact ih ⟨u', w, v, c0, h2, hwall, hlast, hword⟩
      · rw [if_neg hnil]
        rfl
    · rw [if_neg hpre]
      rcases u with _ | ⟨u0, u'⟩
      · exfalso
        rw [List.nil_append] at heq
        exact hpre (List.isPrefixOf_iff_prefix.2 ⟨w ++ v, by rw [heq, List.append_assoc]⟩)
      · rw [List.cons_append] at heq
        injection heq with h1 h2
        exact ih ⟨u', w, v, c0, h2, hwall, hlast, hword⟩

/-- The literal cannot occur in a normalized message
`"Deprecated Feature: " ++ name` with `name` drawn from `[\w-]`. -/
theorem no_lit_after_df (u rest2 : List Char) {name : List Char}
    (hw : name.all wordDash = true)
    (h : "Deprecated Feature: ".toList ++ name = u ++ (lit ++ rest2)) :
    False := by
  have hsp_lit : ' ' ∈ lit := by decide
  have hsp_wd : wordDash ' ' = false := by decide
  have hdash_df : '-' ∉ "Deprecated Feature: ".toList := by decide
  rw [List.all_eq_true] at hw
  rcases (List.append_eq_append_iff.1 h.symm) with ⟨a', ha1, ha2⟩ | ⟨c', hc1, hc2⟩
  · rcases a' with _ | ⟨x, a''⟩
    · rw [List.append_nil] at ha1
      rw [List.nil_append] at ha2
      have : ' ' ∈ name := by
        rw [← ha2]
        exact List.mem_append_left _ hsp_lit
      have := hw _ this
      rw [hsp_wd] at this
      cases this
    · have hlit : lit = '-' :: "-extra-deprecated-features ".toList := rfl
      rw [hlit, List.cons_append, List.cons_append] at ha2
      injection ha2 with hx _
      subst hx
      exact hdash_df (by rw [ha1]; exact List.mem_append_right _ (List.mem_cons_self _ _))
  · have : ' ' ∈ name := by
      rw [hc2]
      exact List.mem_append_right _ (List.mem_append_left _ hsp_lit)
    have := hw _ this
    rw [hsp_wd] at this
    cases this

/-- C6: the message normalizer is idempotent. -/
theorem C6_normalizer_idempotent (msg : Message) :
    simplify_msg (simplify_msg msg) = simplify_msg msg := by
  rcases h : findDep msg with _ | name
  · have hm : simplify_msg msg = msg := by
      rw [simplify_msg, h]
    rw [hm]
    exact hm
  · have hm : simplify_msg msg = "Deprecated Feature: ".toList ++ name := by
      rw [simplify_msg, h]
    obtain ⟨-, hw, -, -⟩ := findDep_sound h
    have hnone : findDep ("Deprecated Feature: ".toList ++ name) = none := by
      rcases h2 : findDep ("Deprecated Feature: ".toList ++ name) with _ | name2
      · rfl
      · obtain ⟨-, -, -, u, v, hdec⟩ := findDep_sound h2
        exact absurd hdec (fun hd =>
          no_lit_after_df u (name2 ++ v) hw
            (by rw [hd, List.append_assoc, List.append_assoc]))
    rw [hm, simplify_msg, hnone]

/-- C5 counterexample: the message `"--extra-deprecated-features -"`
contains the claim's marker (the literal followed by the non-empty
`[A-Za-z0-9_-]` run `"-"`), yet the normalizer returns it unchanged —
the regex's trailing `\b` rejects a name consisting only of hyphens —
so the message is not replaced by a `"Deprecated Feature: "` string. -/
theorem C5_counterexample :
    claimHasMarker msgDash = true ∧
    simplify_msg msgDash = msgDash ∧
    ¬ dfPre.isPrefixOf (simplify_msg msgDash) := by
  refine ⟨by decide, by decide, by decide⟩

/-- C5 amended: on ASCII messages the normalizer replaces the message
by `"Deprecated Feature: " ++ name` exactly when the literal is
followed by a `[\w-]` run containing a word character; the name is the
leftmost such run with its trailing hyphens removed (never empty,
always ending in a word character); otherwise the message is returned
unchanged. -/
theorem C5_normalizer_amended (msg : Message)
    (hascii : msg.all (fun c => decide (c.toNat < 128)) = true) :
    ((∃ name, findDep msg = some name) ↔ HasMatch msg) ∧
    (∀ name, findDep msg = some name →
      simplify_msg msg = dfPre ++ name ∧ name ≠ [] ∧
      name.all wordDash = true ∧
      (∃ c, name.getLast? = some c ∧ isWordChar c = true) ∧
      ∃ u v, msg = u ++ lit ++ name ++ v) ∧
    (findDep msg = none → simplify_msg msg = msg) := by
  refine ⟨⟨?_, ?_⟩, ?_, ?_⟩
  · rintro ⟨name, hn⟩
    obtain ⟨hne, hw, ⟨c, hc, hcw⟩, u, v, hdec⟩ := findDep_sound hn
    exact ⟨u, name, v, c, hdec, hw, hc, hcw⟩
  · intro hm
    have := findDep_complete hm
    rcases hfd : findDep msg with _ | name
    · rw [hfd] at this
      cases this
    · exact ⟨name, rfl⟩
  · intro name hn
    obtain ⟨hne, hw, hlast, u, v, hdec⟩ := findDep_sound hn
    exact ⟨by rw [simplify_msg, hn]; rfl, hne, hw, hlast, u, v, hdec⟩
  · intro hn
    rw [simplify_msg, hn]

/-- Witness for C5's amended theorem on a concrete deprecation
message. -/
theorem C5_witness :
    ("use --extra-deprecated-features url-literals now".toList.all
      (fun c => decide (c.toNat < 128)) = true) ∧
    simplify_msg "use --extra-deprecated-features url-literals now".toList =
      dfPre ++ "url-literals".toList := by
  refine ⟨by decide, ?_⟩
  have h := (C5_normalizer_amended
    "use --extra-deprecated-features url-literals now".toList (by decide)).2.1
    "url-literals".toList (by decide)
  exact h.1

/-! ## Claim C10 — an all-absent `Some(ParserDiff)` is reachable -/

/-- C10: for outputs that differ only in stderr bytes that parse to
identical logs (equal successful statuses, equal stdout, stderr `""`
versus `"\n"`), `diff_file` returns `Some` of a `ParserDiff` with all
six facets absent, not `None`. -/
theorem C10_empty_record :
    diffOutputs parse0 fp0 outEq outNl =
      .ok (some ⟨none, none, none, none, none, none⟩) ∧
    outEq ≠ outNl ∧
    outEq.status = outNl.status ∧
    outEq.status.success = true ∧ outNl.status.success = true ∧
    outEq.stdout = outNl.stdout ∧
    outEq.stderr ≠ outNl.stderr ∧
    split_stderr parse0 fp0 outEq.stderr = split_stderr parse0 fp0 outNl.stderr :=
  ⟨rfl, by decide, rfl, rfl, rfl, rfl, by decide, rfl⟩

/-! ## Claims C7 and C9 — stderr line handling -/

theorem collectLogs_cons (parse : List Nat → Option LogEntry)
    (line : List Nat) (rest : List (List Nat)) (logs : List LogEntry) :
    collectLogs parse (line :: rest) logs =
      match stepLine parse logs line with
      | .error e => .error e
      | .ok logs2 => collectLogs parse rest logs2 := rfl

theorem collectLogs_append (parse : List Nat → Option LogEntry)
    (xs ys : List (List Nat)) (logs : List LogEntry) :
    collectLogs parse (xs ++ ys) logs =
      match collectLogs parse xs logs with
      | .error e => .error e
      | .ok l => collectLogs parse ys l := by
  induction xs generalizing logs with
  | nil => rfl
  | cons x t ih =>
    rw [List.cons_append, collectLogs_cons, collectLogs_cons]
    cases stepLine parse logs x with
    | error e => rfl
    | ok l2 => exact ih l2

theorem stepLine_skip {parse : List Nat → Option LogEntry}
    {line j : List Nat} (logs : List LogEntry)
    (h4 : get04 line = some nixBytes) (h5 : get5 line = some j)
    (hp : parse j = none) :
    stepLine parse logs line = .ok logs := by
  rw [stepLine, h4]
  dsimp only
  rw [if_pos rfl, h5]
  dsimp only
  rw [hp]

theorem stepLine_action {parse : List Nat → Option LogEntry}
    {line j : List Nat} {v : LogEntry} (logs : List LogEntry)
    (h4 : get04 line = some nixBytes) (h5 : get5 line = some j)
    (hp : parse j = some v) (ha : ¬(v.action = "msg".toList)) :
    stepLine parse logs line = .error (.newActionType v.action) := by
  rw [stepLine, h4]
  dsimp only
  rw [if_pos rfl, h5]
  dsimp only
  rw [hp]
  dsimp only
  rw [if_neg ha]

theorem stepLine_other {parse : List Nat → Option LogEntry}
    {line t : List Nat} (logs : List LogEntry)
    (h4 : get04 line = some t) (ht : ¬(t = nixBytes)) :
    stepLine parse logs line = .error (.newType t) := by
  rw [stepLine, h4]
  dsimp only
  rw [if_neg ht]

/-- C7 amended: a `@nix` line with unparsable JSON is skipped and the
result is that of the input without the line; a parsed `action` other
than `"msg"` aborts with `new action type` naming the value, provided
the earlier lines were processed cleanly; a line whose first four
bytes slice to something other than `@nix` aborts with `new type` —
but that slice exists only when byte offset 4 is a character boundary
(a line whose fourth byte starts inside a multi-byte character is
silently ignored). -/
theorem C7_line_handling_amended (parse : List Nat → Option LogEntry)
    (fp : Pos) :
    (∀ pre post line j, get04 line = some nixBytes → get5 line = some j →
      parse j = none →
      processLines parse fp (pre ++ line :: post) =
        processLines parse fp (pre ++ post)) ∧
    (∀ pre post line j v logs0, collectLogs parse pre [] = .ok logs0 →
      get04 line = some nixBytes → get5 line = some j →
      parse j = some v → ¬(v.action = "msg".toList) →
      processLines parse fp (pre ++ line :: post) =
        .error (.newActionType v.action)) ∧
    (∀ pre post line t logs0, collectLogs parse pre [] = .ok logs0 →
      get04 line = some t → ¬(t = nixBytes) →
      processLines parse fp (pre ++ line :: post) =
        .error (.newType t)) ∧
    (∀ pre post line, get04 line = none →
      processLines parse fp (pre ++ line :: post) =
        processLines parse fp (pre ++ post)) := by
  have hskip : ∀ pre post line,
      (∀ logs, stepLine parse logs line = .ok logs) →
      processLines parse fp (pre ++ line :: post) =
        processLines parse fp (pre ++ post) := by
    intro pre post line hstep
    rw [processLines, processLines, collectLogs_append, collectLogs_append]
    cases collectLogs parse pre [] with
    | error e => rfl
    | ok l =>
      dsimp only
      rw [collectLogs_cons, hstep l]
  have herr : ∀ pre post line e logs0, collectLogs parse pre [] = .ok logs0 →
      (∀ logs, stepLine parse logs line = .error e) →
      processLines parse fp (pre ++ line :: post) = .error e := by
    intro pre post line e logs0 hpre hstep
    rw [processLines, collectLogs_append, hpre]
    dsimp only
    rw [collectLogs_cons, hstep logs0]
  refine ⟨?_, ?_, ?_, ?_⟩
  · intro pre post line j h4 h5 hp
    exact hskip pre post line (fun logs => stepLine_skip logs h4 h5 hp)
  · intro pre post line j v logs0 hpre h4 h5 hp ha
    exact herr pre post line _ logs0 hpre
      (fun logs => stepLine_action logs h4 h5 hp ha)
  · intro pre post line t logs0 hpre h4 ht
    exact herr pre post line _ logs0 hpre
      (fun logs => stepLine_other logs h4 ht)
  · intro pre post line h4
    refine hskip pre post line (fun logs => ?_)
    rw [stepLine, h4]

/-- C7 counterexample: the five-byte line `"aaaß"` does not start with
`@nix`, yet processing succeeds (the line is silently ignored) because
byte offset 4 falls inside the two-byte `ß`, refuting "any other line
of four or more bytes not starting with `@nix` makes processing
fail". -/
theorem C7_counterexample :
    lineAaaSz.length = 5 ∧
    lineAaaSz.take 4 ≠ nixBytes ∧
    processLines parse0 fp0 [lineAaaSz] = .ok ([], [], []) :=
  ⟨rfl, by decide, rfl⟩

/-- Witness for C7's amended theorem: a skipped malformed-JSON line, a
`new action type` abort, and a `new type` abort, at concrete inputs. -/
theorem C7_witness :
    processLines parse0 fp0 [[64, 110, 105, 120, 32, 120]] =
      processLines parse0 fp0 [] ∧
    processLines parseBad fp0 [[64, 110, 105, 120, 32, 69]] =
      .error (.newActionType "start".toList) ∧
    processLines parse0 fp0 [[97, 97, 97, 97]] =
      .error (.newType [97, 97, 97, 97]) := by
  obtain ⟨hskip, hact, hother, -⟩ := C7_line_handling_amended parse0 fp0
  obtain ⟨-, hact2, -, -⟩ := C7_line_handling_amended parseBad fp0
  refine ⟨?_, ?_, ?_⟩
  · exact hskip [] [] [64, 110, 105, 120, 32, 120] [120] (by decide) (by decide) rfl
  · exact hact2 [] [] [64, 110, 105, 120, 32, 69] [69]
      ⟨"start".toList, none, 0, "m".toList, none⟩ [] rfl (by decide) (by decide)
      rfl (by decide)
  · exact hother [] [] [97, 97, 97, 97] [97, 97, 97, 97] [] rfl (by decide)
      (by decide)

theorem stepLine_nix_exact (parse : List Nat → Option LogEntry)
    (logs : List LogEntry) :
    stepLine parse logs nixBytes = .error .missingSlice := rfl

theorem collect_error_of_mem {parse : List Nat → Option LogEntry}
    (x : List Nat)
    (hx : ∀ s, ∃ e, stepLine parse s x = .error e) :
    ∀ (lines : List (List Nat)) (logs : List LogEntry), x ∈ lines →
      ∃ e, collectLogs parse lines logs = .error e := by
  intro lines
  induction lines with
  | nil => intro logs h; cases h
  | cons y t ih =>
    intro logs hmem
    rw [collectLogs_cons]
    cases hst : stepLine parse logs y with
    | error e => exact ⟨e, rfl⟩
    | ok l2 =>
      rcases List.mem_cons.1 hmem with rfl | hmem2
      · obtain ⟨e, he⟩ := hx logs
        rw [hst] at he
        cases he
      · exact ih l2 hmem2

/-- C9 amended: a line consisting of exactly the four bytes `@nix`
panics processing (the `unwrap` of the byte-5 slice), and any stderr
containing such a line makes `split_stderr` panic; for a line of five
or more bytes starting with `@nix`, the slice exists — and processing
proceeds past the `unwrap` — exactly when byte offset 5 is a character
boundary. -/
theorem C9_slice_panic_amended :
    (∀ parse fp lines, nixBytes ∈ lines →
      ∃ e, processLines parse fp lines = .error e) ∧
    (processLines parse0 fp0 [nixBytes] = .error .missingSlice) ∧
    (∀ (parse : List Nat → Option LogEntry) logs line,
      5 ≤ line.length → line.take 4 = nixBytes → isBoundary line 5 = true →
      stepLine parse logs line ≠ .error .missingSlice) := by
  refine ⟨?_, rfl, ?_⟩
  · intro parse fp lines hmem
    obtain ⟨e, he⟩ :=
      collect_error_of_mem nixBytes
        (fun s => ⟨.missingSlice, stepLine_nix_exact parse s⟩) lines [] hmem
    exact ⟨e, by rw [processLines, he]⟩
  · intro parse logs line hlen htake hb
    have h5 : get5 line = some (line.drop 5) := by
      rw [get5, if_pos hb]
    rw [stepLine]
    cases h4 : get04 line with
    | none => simp
    | some t =>
      dsimp only
      by_cases ht : t = nixBytes
      · rw [if_pos ht, h5]
        dsimp only
        cases parse (line.drop 5) with
        | none => simp
        | some v =>
          dsimp only
          by_cases ha : v.action = "msg".toList
          · rw [if_pos ha]
            simp
          · rw [if_neg ha]
            simp
      · rw [if_neg ht]
        simp

/-- C9 counterexample: the six-byte line `"@nixß"` starts with `@nix`
and has more than five bytes, yet the byte-5 slice does not exist
(byte 5 is a continuation byte) and the `unwrap` panics, refuting "for
every line of five or more bytes starting with `@nix`, the slice
exists and processing proceeds". -/
theorem C9_counterexample :
    lineNixSz.length = 6 ∧
    lineNixSz.take 4 = nixBytes ∧
    processLines parse0 fp0 [lineNixSz] = .error .missingSlice :=
  ⟨rfl, rfl, rfl⟩

/-- Witness for C9's amended theorem at concrete inputs. -/
theorem C9_witness :
    (nixBytes ∈ [nixBytes] ∧
      ∃ e, processLines parse0 fp0 [nixBytes] = .error e) ∧
    (5 ≤ ([64, 110, 105, 120, 32, 69] : List Nat).length ∧
      stepLine parse0 [] [64, 110, 105, 120, 32, 69] ≠ .error .missingSlice) := by
  obtain ⟨ha, -, hc⟩ := C9_slice_panic_amended
  exact ⟨⟨by decide, ha parse0 fp0 [nixBytes] (by decide)⟩,
    ⟨by decide, hc parse0 [] [64, 110, 105, 120, 32, 69] (by decide) (by decide)
      (by decide)⟩⟩

/-! ## Claim C2 — facet presence -/

/-- C2 counterexample: both runs fail with the same exit status (so
the success flags agree) and only stdout differs; the resulting
`ParserDiff` nevertheless carries a present `pass_eq`, refuting
"pass_eq is present iff A's success flag differs from B's success
flag". -/
theorem C2_counterexample :
    diffOutputs parse0 fp0 outX outY =
      .ok (some { pass_eq := some ⟨false, false⟩,
                  stdout_eq := some ⟨['x'], ['y']⟩ }) ∧
    outX.status.success = outY.status.success ∧
    outX ≠ outY :=
  ⟨rfl, rfl, by decide⟩

/-- C2 amended: in every `ParserDiff` the differ produces, `pass_eq`
is present iff not both parsers succeeded; `exit_eq` is present iff
the statuses differ; `stdout_eq` is present iff the stdout bytes
differ; and each severity facet is present iff the stderr bytes differ
and the corresponding parsed `CompLog`s differ. -/
theorem C2_facet_presence_amended
    (parse : List Nat → Option LogEntry) (fp : Pos) (a b : Output)
    (pd : ParserDiff)
    (h : diffOutputs parse fp a b = .ok (some pd)) :
    (pd.pass_eq.isSome ↔ ¬(a.status.success = true ∧ b.status.success = true)) ∧
    (pd.exit_eq.isSome ↔ a.status ≠ b.status) ∧
    (pd.stdout_eq.isSome ↔ a.stdout ≠ b.stdout) ∧
    (a.stderr = b.stderr →
      pd.err_eq = none ∧ pd.warn_eq = none ∧ pd.trace_eq = none) ∧
    (∀ ea wa ta eb wb tb, a.stderr ≠ b.stderr →
      split_stderr parse fp a.stderr = .ok (ea, wa, ta) →
      split_stderr parse fp b.stderr = .ok (eb, wb, tb) →
      (pd.err_eq.isSome ↔ logBeq ea eb = false) ∧
      (pd.warn_eq.isSome ↔ logBeq wa wb = false) ∧
      (pd.trace_eq.isSome ↔ logBeq ta tb = false)) := by
  unfold diffOutputs at h
  split at h
  · exact absurd h (by simp)
  · split at h
    · split at h
      · exact absurd h (by simp)
      · rename_i errD warnD traceD hsd
        split at h
        · rw [Except.ok.injEq, Option.some.injEq] at h
          subst h
          refine ⟨?_, ?_, ?_, ?_, ?_⟩
          · cases ha : a.status.success <;> cases hb : b.status.success <;>
              simp [ha, hb]
          · by_cases he : a.status = b.status <;> simp [he]
          · by_cases hso : a.stdout = b.stdout <;> simp [hso]
          · intro hse
            unfold diffStderrLogs at hsd
            rw [if_pos hse] at hsd
            simp only [Except.ok.injEq, Prod.mk.injEq] at hsd
            exact ⟨hsd.1.symm, hsd.2.1.symm, hsd.2.2.symm⟩
          · intro ea wa ta eb wb tb hse hsa2 hsb2
            unfold diffStderrLogs at hsd
            rw [if_neg hse, hsa2, hsb2] at hsd
            simp only [Except.ok.injEq, Prod.mk.injEq] at hsd
            obtain ⟨h1, h2, h3⟩ := hsd
            refine ⟨?_, ?_, ?_⟩
            · rw [← h1]
              by_cases hb : logBeq ea eb <;> simp [hb]
            · rw [← h2]
              by_cases hb : logBeq wa wb <;> simp [hb]
            · rw [← h3]
              by_cases hb : logBeq ta tb <;> simp [hb]
        · exact absurd h (by simp)
    · exact absurd h (by simp)

/-- Witness for C2's amended theorem at the counterexample pair. -/
theorem C2_witness :
    (diffOutputs parse0 fp0 outX outY =
      .ok (some { pass_eq := some ⟨false, false⟩,
                  stdout_eq := some ⟨['x'], ['y']⟩ })) ∧
    (({ pass_eq := some ⟨false, false⟩,
        stdout_eq := some ⟨['x'], ['y']⟩} : ParserDiff).pass_eq.isSome ↔
      ¬(outX.status.success = true ∧ outY.status.success = true)) :=
  ⟨rfl, (C2_facet_presence_amended parse0 fp0 outX outY _ rfl).1⟩

/-! ## Claim C8 — every aggregated message key has a non-empty side -/

theorem noEmpty_insertPosLog :
    ∀ {l : CompLog}, NoEmptyFinds l →
      ∀ (k : Message) (p : Pos), NoEmptyFinds (insertPosLog l k p) := by
  intro l
  induction l with
  | nil =>
    intro _ k p kf hkf
    rcases List.mem_singleton.1 hkf with rfl
    simp
  | cons kf0 rest ih =>
    obtain ⟨k0, f⟩ := kf0
    intro h k p kf hkf
    rw [insertPosLog] at hkf
    by_cases hk : k0 = k
    · rw [if_pos hk] at hkf
      rcases List.mem_cons.1 hkf with rfl | hm
      · show (f.insertP p).positions ≠ []
        rw [Finds.insertP]
        by_cases hp : p ∈ f.positions
        · rw [if_pos hp]
          exact h (k0, f) (List.mem_cons_self _ _)
        · rw [if_neg hp]
          simp
      · exact h kf (List.mem_cons_of_mem _ hm)
    · rw [if_neg hk] at hkf
      rcases List.mem_cons.1 hkf with rfl | hm
      · exact h (k0, f) (List.mem_cons_self _ _)
      · exact ih (fun e he => h e (List.mem_cons_of_mem _ he)) k p kf hm

theorem dedupLog_noEmpty_aux (fp : Pos) :
    ∀ (entries : List LogEntry) (acc : CompLog), NoEmptyFinds acc →
      NoEmptyFinds (entries.foldl
        (fun hm e =>
          insertPosLog hm (simplify_msg (e.raw_msg.getD e.msg)) (e.file.getD fp))
        acc) := by
  intro entries
  induction entries with
  | nil => intro acc h; exact h
  | cons e t ih =>
    intro acc h
    rw [List.foldl_cons]
    exact ih _ (noEmpty_insertPosLog h _ _)

theorem dedupLog_noEmpty (entries : List LogEntry) (fp : Pos) :
    NoEmptyFinds (dedupLog entries fp) :=
  dedupLog_noEmpty_aux fp entries []
    (fun kf h => absurd h (List.not_mem_nil kf))

theorem processLines_noEmpty {parse : List Nat → Option LogEntry}
    {fp : Pos} {lines : List (List Nat)} {e w t : CompLog}
    (h : processLines parse fp lines = .ok (e, w, t)) :
    NoEmptyFinds e ∧ NoEmptyFinds w ∧ NoEmptyFinds t := by
  rw [processLines] at h
  cases hc : collectLogs parse lines [] with
  | error e2 =>
    rw [hc] at h
    cases h
  | ok logs =>
    rw [hc] at h
    dsimp only at h
    rw [Except.ok.injEq, Prod.mk.injEq, Prod.mk.injEq] at h
    obtain ⟨h1, h2, h3⟩ := h
    rw [← h1, ← h2, ← h3]
    exact ⟨dedupLog_noEmpty _ _, dedupLog_noEmpty _ _, dedupLog_noEmpty _ _⟩

theorem extract_noEmpty : ∀ {a : CompLog} (b : CompLog), NoEmptyFinds a →
    NoEmptyFinds (extract a b) := by
  intro a
  induction a with
  | nil => intro b h; exact h
  | cons kf rest ih =>
    obtain ⟨k, f⟩ := kf
    intro b h
    rw [extract_cons]
    cases hbk : lget b k with
    | some g =>
      dsimp only
      by_cases hdp : f.positions.filter (fun p => decide (p ∉ g.positions)) = []
      · rw [if_pos hdp]
        exact ih b (fun e he => h e (List.mem_cons_of_mem _ he))
      · rw [if_neg hdp]
        intro kf2 hkf2
        rcases List.mem_cons.1 hkf2 with rfl | hm
        · exact hdp
        · exact ih b (fun e he => h e (List.mem_cons_of_mem _ he)) kf2 hm
    | none =>
      intro kf2 hkf2
      rcases List.mem_cons.1 hkf2 with rfl | hm
      · exact h (k, f) (List.mem_cons_self _ _)
      · exact ih b (fun e he => h e (List.mem_cons_of_mem _ he)) kf2 hm

theorem noEmpty_insertPairLog :
    ∀ {l : CompLog}, NoEmptyFinds l →
      ∀ {k : Message} {v : Finds}, v.positions ≠ [] →
        NoEmptyFinds (insertPairLog l k v) := by
  intro l
  induction l with
  | nil =>
    intro _ k v hv kf hkf
    rcases List.mem_singleton.1 hkf with rfl
    exact hv
  | cons kf0 rest ih =>
    obtain ⟨k0, f⟩ := kf0
    intro h k v hv kf hkf
    rw [insertPairLog] at hkf
    by_cases hk : k0 = k
    · rw [if_pos hk] at hkf
      rcases List.mem_cons.1 hkf with rfl | hm
      · exact hv
      · exact h kf (List.mem_cons_of_mem _ hm)
    · rw [if_neg hk] at hkf
      rcases List.mem_cons.1 hkf with rfl | hm
      · exact h (k0, f) (List.mem_cons_self _ _)
      · exact ih (fun e he => h e (List.mem_cons_of_mem _ he)) hv kf hm

theorem noEmpty_extendLog : ∀ {Y X : CompLog}, NoEmptyFinds X →
    NoEmptyFinds Y → NoEmptyFinds (extendLog X Y) := by
  intro Y
  induction Y with
  | nil => intro X hX _; exact hX
  | cons kv Y ih =>
    obtain ⟨k, v⟩ := kv
    intro X hX hY
    rw [extendLog_cons]
    exact ih
      (noEmpty_insertPairLog hX (hY (k, v) (List.mem_cons_self _ _)))
      (fun e he => hY e (List.mem_cons_of_mem _ he))

theorem good_mergeOptLog {x y : Option (Diff CompLog)}
    (hx : GoodLogOpt x) (hy : GoodLogOpt y) :
    GoodLogOpt (mergeOptLog x y) := by
  rcases x with _ | A
  · exact hy
  · rcases y with _ | B
    · exact hx
    · intro d hd
      have hd2 : A.mergeComp B = d := by
        simpa [mergeOptLog] using hd
      subst hd2
      obtain ⟨hA1, hA2⟩ := hx A rfl
      obtain ⟨hB1, hB2⟩ := hy B rfl
      exact ⟨noEmpty_extendLog hA1 hB1, noEmpty_extendLog hA2 hB2⟩

theorem good_merge {s o : ParserDiff} (hs : GoodParserDiff s)
    (ho : GoodParserDiff o) : GoodParserDiff (s.merge o) :=
  ⟨good_mergeOptLog hs.1 ho.1, good_mergeOptLog hs.2.1 ho.2.1,
   good_mergeOptLog hs.2.2 ho.2.2⟩

theorem diffStderrLogs_good {parse : List Nat → Option LogEntry}
    {fp : Pos} {sa sb : List Nat}
    {e w t : Option (Diff CompLog)}
    (h : diffStderrLogs parse fp sa sb = .ok (e, w, t)) :
    GoodLogOpt e ∧ GoodLogOpt w ∧ GoodLogOpt t := by
  rw [diffStderrLogs] at h
  by_cases hse : sa = sb
  · rw [if_pos hse] at h
    rw [Except.ok.injEq, Prod.mk.injEq, Prod.mk.injEq] at h
    obtain ⟨h1, h2, h3⟩ := h
    refine ⟨?_, ?_, ?_⟩
    · intro d hd
      rw [← h1] at hd
      cases hd
    · intro d hd
      rw [← h2] at hd
      cases hd
    · intro d hd
      rw [← h3] at hd
      cases hd
  · rw [if_neg hse] at h
    cases hA : split_stderr parse fp sa with
    | error e2 =>
      rw [hA] at h
      cases h
    | ok trA =>
      obtain ⟨ea, wa, ta⟩ := trA
      rw [hA] at h
      dsimp only at h
      cases hB : split_stderr parse fp sb with
      | error e2 =>
        rw [hB] at h
        cases h
      | ok trB =>
        obtain ⟨eb, wb, tb⟩ := trB
        rw [hB] at h
        dsimp only at h
        rw [Except.ok.injEq, Prod.mk.injEq, Prod.mk.injEq] at h
        obtain ⟨h1, h2, h3⟩ := h
        obtain ⟨hea, hwa, hta⟩ := processLines_noEmpty hA
        obtain ⟨heb, hwb, htb⟩ := processLines_noEmpty hB
        refine ⟨?_, ?_, ?_⟩
        · intro d hd
          rw [← h1] at hd
          by_cases hq : logBeq ea eb = true
          · rw [if_pos hq] at hd
            cases hd
          · rw [if_neg hq, Option.some.injEq] at hd
            rw [← hd]
            exact ⟨extract_noEmpty eb hea, extract_noEmpty ea heb⟩
        · intro d hd
          rw [← h2] at hd
          by_cases hq : logBeq wa wb = true
          · rw [if_pos hq] at hd
            cases hd
          · rw [if_neg hq, Option.some.injEq] at hd
            rw [← hd]
            exact ⟨extract_noEmpty wb hwa, extract_noEmpty wa hwb⟩
        · intro d hd
          rw [← h3] at hd
          by_cases hq : logBeq ta tb = true
          · rw [if_pos hq] at hd
            cases hd
          · rw [if_neg hq, Option.some.injEq] at hd
            rw [← hd]
            exact ⟨extract_noEmpty tb hta, extract_noEmpty ta htb⟩

theorem diffOutputs_good {parse : List Nat → Option LogEntry} {fp : Pos}
    {a b : Output} {pd : ParserDiff}
    (h : diffOutputs parse fp a b = .ok (some pd)) : GoodParserDiff pd := by
  unfold diffOutputs at h
  split at h
  · exact absurd h (by simp)
  · split at h
    · split at h
      · exact absurd h (by simp)
      · rename_i errD warnD traceD hsd
        split at h
        · rw [Except.ok.injEq, Option.some.injEq] at h
          subst h
          exact diffStderrLogs_good hsd
        · exact absurd h (by simp)
    · exact absurd h (by simp)

theorem good_fold {h0 : ParserDiff} {t : List ParserDiff}
    (hh : GoodParserDiff h0) (ht : ∀ pd ∈ t, GoodParserDiff pd) :
    GoodParserDiff (t.foldl (fun acc d => acc.merge d) h0) := by
  induction t generalizing h0 with
  | nil => exact hh
  | cons x xs ih =>
    rw [List.foldl_cons]
    exact ih (good_merge hh (ht x (List.mem_cons_self _ _)))
      (fun pd hp => ht pd (List.mem_cons_of_mem _ hp))

theorem setSideA_inv :
    ∀ {hm : List (Message × Diff (List Pos))} {m : Message} {ps : List Pos},
      (∀ e ∈ hm, e.2.result_a ≠ []) → ps ≠ [] →
      ∀ e ∈ setSideA hm m ps, e.2.result_a ≠ [] := by
  intro hm
  induction hm with
  | nil =>
    intro m ps _ hps e he
    rcases List.mem_singleton.1 he with rfl
    exact hps
  | cons kd rest ih =>
    obtain ⟨k, d⟩ := kd
    intro m ps hinv hps e he
    rw [setSideA] at he
    by_cases hk : k = m
    · rw [if_pos hk] at he
      rcases List.mem_cons.1 he with rfl | hm2
      · exact hps
      · exact hinv e (List.mem_cons_of_mem _ hm2)
    · rw [if_neg hk] at he
      rcases List.mem_cons.1 he with rfl | hm2
      · exact hinv (k, d) (List.mem_cons_self _ _)
      · exact ih (fun e2 h2 => hinv e2 (List.mem_cons_of_mem _ h2)) hps e hm2

theorem setSideB_inv :
    ∀ {hm : List (Message × Diff (List Pos))} {m : Message} {ps : List Pos},
      (∀ e ∈ hm, e.2.result_a ≠ [] ∨ e.2.result_b ≠ []) → ps ≠ [] →
      ∀ e ∈ setSideB hm m ps, e.2.result_a ≠ [] ∨ e.2.result_b ≠ [] := by
  intro hm
  induction hm with
  | nil =>
    intro m ps _ hps e he
    rcases List.mem_singleton.1 he with rfl
    exact Or.inr hps
  | cons kd rest ih =>
    obtain ⟨k, d⟩ := kd
    intro m ps hinv hps e he
    rw [setSideB] at he
    by_cases hk : k = m
    · rw [if_pos hk] at he
      rcases List.mem_cons.1 he with rfl | hm2
      · exact Or.inr hps
      · exact hinv e (List.mem_cons_of_mem _ hm2)
    · rw [if_neg hk] at he
      rcases List.mem_cons.1 he with rfl | hm2
      · exact hinv (k, d) (List.mem_cons_self _ _)
      · exact ih (fun e2 h2 => hinv e2 (List.mem_cons_of_mem _ h2)) hps e hm2

theorem foldA_inv :
    ∀ (ra : CompLog) (acc : List (Message × Diff (List Pos))),
      (∀ e ∈ acc, e.2.result_a ≠ []) → NoEmptyFinds ra →
      ∀ e ∈ ra.foldl (fun hm e2 => setSideA hm e2.1 e2.2.positions) acc,
        e.2.result_a ≠ [] := by
  intro ra
  induction ra with
  | nil => intro acc h _; exact h
  | cons kv t ih =>
    intro acc hacc hne
    rw [List.foldl_cons]
    exact ih _ (setSideA_inv hacc (hne kv (List.mem_cons_self _ _)))
      (fun e he => hne e (List.mem_cons_of_mem _ he))

theorem foldB_inv :
    ∀ (rb : CompLog) (acc : List (Message × Diff (List Pos))),
      (∀ e ∈ acc, e.2.result_a ≠ [] ∨ e.2.result_b ≠ []) → NoEmptyFinds rb →
      ∀ e ∈ rb.foldl (fun hm e2 => setSideB hm e2.1 e2.2.positions) acc,
        e.2.result_a ≠ [] ∨ e.2.result_b ≠ [] := by
  intro rb
  induction rb with
  | nil => intro acc h _; exact h
  | cons kv t ih =>
    intro acc hacc hne
    rw [List.foldl_cons]
    exact ih _ (setSideB_inv hacc (hne kv (List.mem_cons_self _ _)))
      (fun e he => hne e (List.mem_cons_of_mem _ he))

theorem propagateMsg_inv {o : Option (Diff CompLog)} (hg : GoodLogOpt o) :
    ∀ e ∈ propagateMsg o, e.2.result_a ≠ [] ∨ e.2.result_b ≠ [] := by
  cases o with
  | none =>
    intro e he
    cases he
  | some d =>
    obtain ⟨h1, h2⟩ := hg d rfl
    rw [propagateMsg]
    have hp1 := foldA_inv d.result_a []
      (fun e he => absurd he (List.not_mem_nil e)) h1
    exact foldB_inv d.result_b _ (fun e he => Or.inl (hp1 e he)) h2

/-- C8: in a `DiffResult` obtained by folding `ParserDiff`s that came
from the file differ, every message key of each severity map has at
least one non-empty side. -/
theorem C8_diffresult_nonempty_side (pds : List ParserDiff)
    (h : ∀ pd ∈ pds, FromDiffer pd) :
    (∀ e ∈ (DiffResult.fromDiffs pds).err_diff,
      e.2.result_a ≠ [] ∨ e.2.result_b ≠ []) ∧
    (∀ e ∈ (DiffResult.fromDiffs pds).wrn_diff,
      e.2.result_a ≠ [] ∨ e.2.result_b ≠ []) ∧
    (∀ e ∈ (DiffResult.fromDiffs pds).trc_diff,
      e.2.result_a ≠ [] ∨ e.2.result_b ≠ []) := by
  cases pds with
  | nil =>
    refine ⟨?_, ?_, ?_⟩ <;> (intro e he; cases he)
  | cons h0 t =>
    have hgood : ∀ pd ∈ h0 :: t, GoodParserDiff pd := by
      intro pd hpd
      obtain ⟨parse, fp, a, b, hd⟩ := h pd hpd
      exact diffOutputs_good hd
    have hrep : GoodParserDiff (t.foldl (fun acc d => acc.merge d) h0) :=
      good_fold (hgood h0 (List.mem_cons_self _ _))
        (fun pd hp => hgood pd (List.mem_cons_of_mem _ hp))
    exact ⟨propagateMsg_inv hrep.1, propagateMsg_inv hrep.2.1,
      propagateMsg_inv hrep.2.2⟩

/-- Witness for C8 at a one-element list of differ-produced diffs. -/
theorem C8_witness :
    (∀ pd ∈ [pdW], FromDiffer pd) ∧
    (∀ e ∈ (DiffResult.fromDiffs [pdW]).err_diff,
      e.2.result_a ≠ [] ∨ e.2.result_b ≠ []) := by
  have hfd : ∀ pd ∈ [pdW], FromDiffer pd := by
    intro pd hpd
    rcases List.mem_singleton.1 hpd with rfl
    exact ⟨parseW, fp0, outEq, outE, rfl⟩
  exact ⟨hfd, (C8_diffresult_nonempty_side [pdW] hfd).1⟩

end Flaker
